import Mathlib

/-!
# Verification of the `claude-context` file synchronizer core

Shallow embedding of `packages/core/src/sync/synchronizer.ts`:
the gitignore-style path matcher (`shouldIgnore` / `matchGitignorePattern`),
the state differ (`compareStates`), the fingerprint-tree builder
(`buildMerkleDAG`), the change-check orchestration (`checkForChanges`) and
snapshot deletion (`deleteSnapshot`).

JavaScript `Map` objects are modelled as insertion-ordered association
lists (`FileState`); JavaScript strings are Lean `String`s; the platform
path separator (`path.sep`) is modelled as `'/'` (POSIX).  External
collaborators that are not part of the repository (the `minimatch` glob
library, the `fs` unlink primitive, the cryptographic digest used by the
`merkle.ts` module) are modelled from the spec where noted.
-/

namespace SyncCore

/-- `s.startsWith(p)` of JavaScript strings, via the character lists. -/
def strStartsWith (s p : String) : Bool :=
  p.data.isPrefixOf s.data

/-- `s.endsWith(p)` of JavaScript strings, via the character lists. -/
def strEndsWith (s p : String) : Bool :=
  p.data.reverse.isPrefixOf s.data.reverse

/-- `s.includes(c)` for a single character. -/
def strContainsChar (s : String) (c : Char) : Bool :=
  s.data.contains c

/-- `s.slice(n)` for a nonnegative `n`: drop the first `n` characters. -/
def strDrop (s : String) (n : Nat) : String :=
  ⟨s.data.drop n⟩

/-- `s.slice(0, -n)`: drop the last `n` characters. -/
def strDropRight (s : String) (n : Nat) : String :=
  ⟨s.data.take (s.data.length - n)⟩

/-- JavaScript `String.prototype.trim` (whitespace stripped from both
ends). -/
def jsTrim (s : String) : String :=
  ⟨((s.data.dropWhile Char.isWhitespace).reverse.dropWhile Char.isWhitespace).reverse⟩

/-- `s.split(sep)` of JavaScript for a single-character separator, on
character lists: `""` splits to `[""]`, separators at the ends produce
empty fields. -/
def jsSplitChars (sep : Char) : List Char → List Char → List (List Char)
  | [], acc => [acc.reverse]
  | c :: cs, acc =>
    if c = sep then acc.reverse :: jsSplitChars sep cs []
    else jsSplitChars sep cs (c :: acc)

/-- `s.split(sep)` on strings. -/
def jsSplit (sep : Char) (s : String) : List String :=
  (jsSplitChars sep s.data []).map (fun l => ⟨l⟩)

/-- `s.replace(/\\/g, '/')`: backslashes become forward slashes. -/
def backslashToSlash (s : String) : String :=
  ⟨s.data.map (fun c => if c = '\\' then '/' else c)⟩

/-- `s.replace(/^\/+|\/+$/g, '')`: strip leading and trailing slashes. -/
def stripOuterSlashes (s : String) : String :=
  ⟨((s.data.dropWhile (fun c => c = '/')).reverse.dropWhile (fun c => c = '/')).reverse⟩

/-! ## FileState: the JavaScript `Map<string, string>` from relative path
to content hash, as an insertion-ordered association list. -/

/-- A JavaScript `Map<string, string>` in insertion order. -/
abbrev FileState := List (String × String)

/-- `map.get(k)` — the value of the first entry with key `k`. -/
def mapGet (m : FileState) (k : String) : Option String :=
  (m.find? (fun e => e.1 = k)).map (fun e => e.2)

/-- `map.has(k)`. -/
def mapHas (m : FileState) (k : String) : Bool :=
  m.any (fun e => e.1 = k)

/-- `Array.from(map.keys())` — the keys in insertion order. -/
def mapKeys (m : FileState) : List String :=
  m.map (fun e => e.1)

theorem mapGet_cons (k v : String) (t : FileState) (p : String) :
    mapGet ((k, v) :: t) p = if k = p then some v else mapGet t p := by
  by_cases h : k = p
  · simp [mapGet, List.find?_cons_of_pos, h]
  · simp [mapGet, List.find?_cons_of_neg, h]

theorem mapHas_cons (k v : String) (t : FileState) (p : String) :
    mapHas ((k, v) :: t) p = (decide (k = p) || mapHas t p) := by
  simp [mapHas]

theorem mapKeys_cons (k v : String) (t : FileState) :
    mapKeys ((k, v) :: t) = k :: mapKeys t := rfl

theorem mapHas_iff_mem_keys (m : FileState) (k : String) :
    mapHas m k = true ↔ k ∈ mapKeys m := by
  induction m with
  | nil => simp [mapHas, mapKeys]
  | cons e t ih =>
    obtain ⟨a, v⟩ := e
    rw [mapHas_cons, mapKeys_cons]
    simp only [Bool.or_eq_true, decide_eq_true_eq, List.mem_cons, ih]
    exact or_congr_left ⟨fun h => h.symm, fun h => h.symm⟩

theorem mapGet_eq_some_of_mem (m : FileState) (p h : String)
    (hnd : (mapKeys m).Nodup) (hm : (p, h) ∈ m) : mapGet m p = some h := by
  induction m with
  | nil => simp at hm
  | cons e t ih =>
    obtain ⟨a, v⟩ := e
    rw [mapKeys_cons, List.nodup_cons] at hnd
    rw [mapGet_cons]
    rcases List.mem_cons.mp hm with he | ht
    · obtain ⟨h1, h2⟩ := Prod.mk.injEq .. ▸ he
      simp [h1, h2]
    · have hap : a ≠ p := by
        intro hcontra
        subst hcontra
        exact hnd.1 (List.mem_map_of_mem (fun x => x.1) ht)

      rw [if_neg hap]
      exact ih hnd.2 ht

theorem mem_of_mapGet_eq_some (m : FileState) (p h : String)
    (hg : mapGet m p = some h) : (p, h) ∈ m := by
  induction m with
  | nil => simp [mapGet] at hg
  | cons e t ih =>
    obtain ⟨a, v⟩ := e
    rw [mapGet_cons] at hg
    by_cases hap : a = p
    · rw [if_pos hap] at hg
      subst hap
      obtain rfl : v = h := Option.some.inj hg
      exact List.mem_cons_self _ _
    · rw [if_neg hap] at hg
      exact List.mem_cons_of_mem _ (ih hg)

theorem mapGet_isSome_of_mapHas (m : FileState) (p : String)
    (hh : mapHas m p = true) : ∃ h, mapGet m p = some h := by
  induction m with
  | nil => simp [mapHas] at hh
  | cons e t ih =>
    obtain ⟨a, v⟩ := e
    rw [mapHas_cons] at hh
    rw [mapGet_cons]
    by_cases hap : a = p
    · exact ⟨v, if_pos hap⟩
    · rw [if_neg hap]
      simp only [Bool.or_eq_true, decide_eq_true_eq] at hh
      exact ih (hh.resolve_left hap)

theorem mapHas_false_iff (m : FileState) (p : String) :
    mapHas m p = false ↔ ¬ p ∈ mapKeys m := by
  rw [← mapHas_iff_mem_keys]
  exact ⟨fun h => by simp [h], fun h => Bool.not_eq_true _ ▸ h⟩

/-! ## compareStates (synchronizer.ts lines 306-330) -/

/-- The `{added, removed, modified}` record returned by
`compareStates` and `checkForChanges`. -/
structure Diff where
  added : List String
  removed : List String
  modified : List String
deriving Repr, DecidableEq

/-- The first loop of `compareStates`: walk the new entries in order;
a path absent from the old map is pushed to `added`, a present path
whose old hash differs from the new one is pushed to `modified`. -/
def compareNewEntries (oldHashes : FileState) :
    List (String × String) → List String × List String
  | [] => ([], [])
  | (file, hash) :: rest =>
    let tail := compareNewEntries oldHashes rest
    if !mapHas oldHashes file then
      (file :: tail.1, tail.2)
    else if mapGet oldHashes file ≠ some hash then
      (tail.1, file :: tail.2)
    else
      tail

/-- `compareStates(oldHashes, newHashes)` (synchronizer.ts lines
306-330): exact per-path diff between two file states. -/
def compareStates (oldHashes newHashes : FileState) : Diff :=
  let firstPass := compareNewEntries oldHashes newHashes
  let removed := (mapKeys oldHashes).filter (fun file => !mapHas newHashes file)
  { added := firstPass.1, removed := removed, modified := firstPass.2 }

theorem mem_compareNewEntries_added (oldHashes : FileState)
    (l : List (String × String)) (p : String) :
    p ∈ (compareNewEntries oldHashes l).1 ↔
      p ∈ l.map (fun e => e.1) ∧ mapHas oldHashes p = false := by
  induction l with
  | nil => simp [compareNewEntries]
  | cons e t ih =>
    obtain ⟨file, hash⟩ := e
    simp only [compareNewEntries, List.map_cons, List.mem_cons]
    split
    next hcond =>
      have hfile : mapHas oldHashes file = false := by
        simpa using hcond
      simp only [List.mem_cons, ih]
      constructor
      · rintro (rfl | ⟨hmem, hfalse⟩)
        · exact ⟨Or.inl rfl, hfile⟩
        · exact ⟨Or.inr hmem, hfalse⟩
      · rintro ⟨hp, hfalse⟩
        rcases hp with rfl | hmem
        · exact Or.inl rfl
        · exact Or.inr ⟨hmem, hfalse⟩
    next hcond =>
      have hfile : mapHas oldHashes file = true := by
        simpa using hcond
      split
      next =>
        simp only [ih]
        constructor
        · rintro ⟨hmem, hfalse⟩
          exact ⟨Or.inr hmem, hfalse⟩
        · rintro ⟨hp, hfalse⟩
          rcases hp with rfl | hmem
          · rw [hfile] at hfalse
            exact absurd hfalse (by simp)
          · exact ⟨hmem, hfalse⟩
      next =>
        simp only [ih]
        constructor
        · rintro ⟨hmem, hfalse⟩
          exact ⟨Or.inr hmem, hfalse⟩
        · rintro ⟨hp, hfalse⟩
          rcases hp with rfl | hmem
          · rw [hfile] at hfalse
            exact absurd hfalse (by simp)
          · exact ⟨hmem, hfalse⟩

theorem mem_compareNewEntries_modified (oldHashes : FileState)
    (l : List (String × String)) (p : String) :
    p ∈ (compareNewEntries oldHashes l).2 ↔
      ∃ h, (p, h) ∈ l ∧ mapHas oldHashes p = true ∧
        mapGet oldHashes p ≠ some h := by
  induction l with
  | nil => simp [compareNewEntries]
  | cons e t ih =>
    obtain ⟨file, hash⟩ := e
    simp only [compareNewEntries]
    split
    next hcond =>
      have hfile : mapHas oldHashes file = false := by
        simpa using hcond
      simp only [ih]
      constructor
      · rintro ⟨h, hmem, hhas, hne⟩
        exact ⟨h, List.mem_cons_of_mem _ hmem, hhas, hne⟩
      · rintro ⟨h, hmem, hhas, hne⟩
        rcases List.mem_cons.mp hmem with hcase | hcase
        · obtain ⟨h1, h2⟩ := Prod.mk.injEq .. ▸ hcase
          subst h1
          rw [hfile] at hhas
          exact absurd hhas (by simp)
        · exact ⟨h, hcase, hhas, hne⟩
    next hcond =>
      have hfile : mapHas oldHashes file = true := by
        simpa using hcond
      split
      next hne =>
        constructor
        · intro hp
          rcases List.mem_cons.mp hp with rfl | hmem
          · exact ⟨hash, List.mem_cons_self _ _, hfile, hne⟩
          · obtain ⟨h, hmem2, hhas, hne2⟩ := ih.mp hmem
            exact ⟨h, List.mem_cons_of_mem _ hmem2, hhas, hne2⟩
        · rintro ⟨h, hmem, hhas, hne2⟩
          rcases List.mem_cons.mp hmem with hcase | hcase
          · obtain ⟨h1, h2⟩ := Prod.mk.injEq .. ▸ hcase
            subst h1
            exact List.mem_cons_self _ _
          · exact List.mem_cons_of_mem _ (ih.mpr ⟨h, hcase, hhas, hne2⟩)
      next hne =>
        have heq : mapGet oldHashes file = some hash := by
          by_contra hc
          exact hne hc
        simp only [ih]
        constructor
        · rintro ⟨h, hmem, hhas, hne2⟩
          exact ⟨h, List.mem_cons_of_mem _ hmem, hhas, hne2⟩
        · rintro ⟨h, hmem, hhas, hne2⟩
          rcases List.mem_cons.mp hmem with hcase | hcase
          · obtain ⟨h1, h2⟩ := Prod.mk.injEq .. ▸ hcase
            subst h1
            subst h2
            exact absurd heq hne2
          · exact ⟨h, hcase, hhas, hne2⟩

/-! Membership characterizations of the three `compareStates` lists,
shared by the functional-correctness and disjointness results. -/

theorem compareStates_added_iff (oldHashes newHashes : FileState) (p : String) :
    p ∈ (compareStates oldHashes newHashes).added ↔
      (mapHas newHashes p = true ∧ mapHas oldHashes p = false) := by
  show p ∈ (compareNewEntries oldHashes newHashes).1 ↔ _
  rw [mem_compareNewEntries_added]
  exact and_congr_left (fun _ => (mapHas_iff_mem_keys newHashes p).symm)

theorem compareStates_removed_iff (oldHashes newHashes : FileState) (p : String) :
    p ∈ (compareStates oldHashes newHashes).removed ↔
      (mapHas oldHashes p = true ∧ mapHas newHashes p = false) := by
  show p ∈ (mapKeys oldHashes).filter (fun file => !mapHas newHashes file) ↔ _
  rw [List.mem_filter]
  constructor
  · rintro ⟨hmem, hfilter⟩
    refine ⟨(mapHas_iff_mem_keys _ _).mpr hmem, ?_⟩
    simpa using hfilter
  · rintro ⟨hhas, hfalse⟩
    exact ⟨(mapHas_iff_mem_keys _ _).mp hhas, by simp [hfalse]⟩

theorem compareStates_modified_iff (oldHashes newHashes : FileState)
    (hndNew : (mapKeys newHashes).Nodup) (p : String) :
    p ∈ (compareStates oldHashes newHashes).modified ↔
      (mapHas oldHashes p = true ∧ mapHas newHashes p = true ∧
        mapGet oldHashes p ≠ mapGet newHashes p) := by
  show p ∈ (compareNewEntries oldHashes newHashes).2 ↔ _
  rw [mem_compareNewEntries_modified]
  constructor
  · rintro ⟨h, hmem, hhas, hne⟩
    have hget : mapGet newHashes p = some h :=
      mapGet_eq_some_of_mem _ _ _ hndNew hmem
    have hnew : mapHas newHashes p = true :=
      (mapHas_iff_mem_keys _ _).mpr (List.mem_map_of_mem (fun e => e.1) hmem)
    refine ⟨hhas, hnew, ?_⟩
    rw [hget]
    exact hne
  · rintro ⟨hhasOld, hhasNew, hne⟩
    obtain ⟨h, hget⟩ := mapGet_isSome_of_mapHas _ _ hhasNew
    refine ⟨h, mem_of_mapGet_eq_some _ _ _ hget, hhasOld, ?_⟩
    rw [← hget]
    exact hne

theorem compareNewEntries_added_sublist (o : FileState)
    (l : List (String × String)) :
    (compareNewEntries o l).1.Sublist (l.map (fun e => e.1)) := by
  induction l with
  | nil => simp [compareNewEntries]
  | cons e t ih =>
    obtain ⟨file, hash⟩ := e
    simp only [compareNewEntries, List.map_cons]
    split
    · exact ih.cons₂ _
    · split
      · exact ih.cons _
      · exact ih.cons _

theorem compareNewEntries_modified_sublist (o : FileState)
    (l : List (String × String)) :
    (compareNewEntries o l).2.Sublist (l.map (fun e => e.1)) := by
  induction l with
  | nil => simp [compareNewEntries]
  | cons e t ih =>
    obtain ⟨file, hash⟩ := e
    simp only [compareNewEntries, List.map_cons]
    split
    · exact ih.cons _
    · split
      · exact ih.cons₂ _
      · exact ih.cons _

/-- C4: `compareStates` returns `added` = exactly the paths in the new
map and not the old, `removed` = exactly the paths in the old map and
not the new, `modified` = exactly the paths in both whose hashes differ
(synchronizer.ts lines 306-330). -/
theorem compareStates_exact_diff (oldHashes newHashes : FileState)
    (hndOld : (mapKeys oldHashes).Nodup) (hndNew : (mapKeys newHashes).Nodup) :
    (∀ p, p ∈ (compareStates oldHashes newHashes).added ↔
        (mapHas newHashes p = true ∧ mapHas oldHashes p = false))
    ∧ (∀ p, p ∈ (compareStates oldHashes newHashes).removed ↔
        (mapHas oldHashes p = true ∧ mapHas newHashes p = false))
    ∧ (∀ p, p ∈ (compareStates oldHashes newHashes).modified ↔
        (mapHas oldHashes p = true ∧ mapHas newHashes p = true ∧
          mapGet oldHashes p ≠ mapGet newHashes p)) :=
  ⟨fun p => compareStates_added_iff oldHashes newHashes p,
   fun p => compareStates_removed_iff oldHashes newHashes p,
   fun p => compareStates_modified_iff oldHashes newHashes hndNew p⟩

/-- Witness for C4 at the claim's own example: old `{a:h1, b:h2}`
versus new `{b:h2, c:h3}` yields `added=[c], removed=[a], modified=[]`. -/
theorem compareStates_exact_diff_witness :
    ("c" ∈ (compareStates [("a", "h1"), ("b", "h2")]
        [("b", "h2"), ("c", "h3")]).added)
    ∧ compareStates [("a", "h1"), ("b", "h2")] [("b", "h2"), ("c", "h3")] =
        { added := ["c"], removed := ["a"], modified := [] } := by
  constructor
  · exact ((compareStates_exact_diff [("a", "h1"), ("b", "h2")]
      [("b", "h2"), ("c", "h3")] (by decide) (by decide)).1 "c").mpr (by decide)
  · decide

/-- C10: the three lists returned by `compareStates` are duplicate-free
and pairwise disjoint. -/
theorem compareStates_lists_disjoint (oldHashes newHashes : FileState)
    (hndOld : (mapKeys oldHashes).Nodup) (hndNew : (mapKeys newHashes).Nodup) :
    (compareStates oldHashes newHashes).added.Nodup
    ∧ (compareStates oldHashes newHashes).removed.Nodup
    ∧ (compareStates oldHashes newHashes).modified.Nodup
    ∧ (compareStates oldHashes newHashes).added.Disjoint
        (compareStates oldHashes newHashes).removed
    ∧ (compareStates oldHashes newHashes).added.Disjoint
        (compareStates oldHashes newHashes).modified
    ∧ (compareStates oldHashes newHashes).removed.Disjoint
        (compareStates oldHashes newHashes).modified := by
  refine ⟨?_, ?_, ?_, ?_, ?_, ?_⟩
  · exact (compareNewEntries_added_sublist oldHashes newHashes).nodup hndNew
  · exact hndOld.filter _
  · exact (compareNewEntries_modified_sublist oldHashes newHashes).nodup hndNew
  · intro p hp hq
    have h1 := (compareStates_added_iff oldHashes newHashes p).mp hp
    have h2 := (compareStates_removed_iff oldHashes newHashes p).mp hq
    rw [h1.2] at h2
    exact absurd h2.1 (by simp)
  · intro p hp hq
    have h1 := (compareStates_added_iff oldHashes newHashes p).mp hp
    have h2 := (compareStates_modified_iff oldHashes newHashes hndNew p).mp hq
    rw [h1.2] at h2
    exact absurd h2.1 (by simp)
  · intro p hp hq
    have h1 := (compareStates_removed_iff oldHashes newHashes p).mp hp
    have h2 := (compareStates_modified_iff oldHashes newHashes hndNew p).mp hq
    rw [h1.2] at h2
    exact absurd h2.2.1 (by simp)

/-- Witness for C10 at a concrete pair of states exercising all three
lists. -/
theorem compareStates_lists_disjoint_witness :
    (compareStates [("a", "h1"), ("b", "h2")] [("a", "h9"), ("c", "h3")]).added.Nodup
    ∧ (compareStates [("a", "h1"), ("b", "h2")] [("a", "h9"), ("c", "h3")]).removed.Nodup
    ∧ (compareStates [("a", "h1"), ("b", "h2")] [("a", "h9"), ("c", "h3")]).modified.Nodup
    ∧ (compareStates [("a", "h1"), ("b", "h2")] [("a", "h9"), ("c", "h3")]).added.Disjoint
        (compareStates [("a", "h1"), ("b", "h2")] [("a", "h9"), ("c", "h3")]).removed
    ∧ (compareStates [("a", "h1"), ("b", "h2")] [("a", "h9"), ("c", "h3")]).added.Disjoint
        (compareStates [("a", "h1"), ("b", "h2")] [("a", "h9"), ("c", "h3")]).modified
    ∧ (compareStates [("a", "h1"), ("b", "h2")] [("a", "h9"), ("c", "h3")]).removed.Disjoint
        (compareStates [("a", "h1"), ("b", "h2")] [("a", "h9"), ("c", "h3")]).modified :=
  compareStates_lists_disjoint [("a", "h1"), ("b", "h2")] [("a", "h9"), ("c", "h3")]
    (by decide) (by decide)

/-! ## FingerprintTree (Merkle DAG)

`buildMerkleDAG` (synchronizer.ts lines 251-271) is in the sources; the
`MerkleDAG` class it uses lives in `packages/core/src/sync/merkle.ts`,
which is not among the sources at hand, so the class is modelled from
the spec (sections 3 and 4.3). -/

/-- Modelled from the spec: the content-addressed digest assigning each
FingerprintNode its opaque identifier ("a content-addressed node
structure").  The digest is used only for equality detection, so it is
modelled as the injective identity on contents. -/
def merkleHash (data : String) : String := data

/-- Modelled from the spec: a FingerprintNode is an opaque identifier
plus a content string, optionally attached to a parent node. -/
structure MerkleNode where
  id : String
  data : String
  parentId : Option String
deriving Repr, DecidableEq

/-- Modelled from the spec: a FingerprintTree owns all FingerprintNodes
of one scan, as a flat node list. -/
structure MerkleDAG where
  nodes : List MerkleNode
deriving Repr, DecidableEq

/-- Modelled from the spec: `addNode(content, parentId?) -> nodeId`
appends a content-addressed node and returns its identifier. -/
def MerkleDAG.addNode (dag : MerkleDAG) (data : String)
    (parentId : Option String) : MerkleDAG × String :=
  let nodeId := merkleHash data
  ({ nodes := dag.nodes ++ [{ id := nodeId, data := data, parentId := parentId }] },
   nodeId)

/-- The identifiers of all nodes of a tree. -/
def MerkleDAG.nodeIds (dag : MerkleDAG) : List String :=
  dag.nodes.map (fun n => n.id)

/-- Node lookup by identifier. -/
def MerkleDAG.getNode (dag : MerkleDAG) (nodeId : String) : Option MerkleNode :=
  dag.nodes.find? (fun n => n.id = nodeId)

/-- Modelled from the spec: `compare(a, b) -> {added, removed, modified}`
over the node identity/content sets: `added` holds the identifiers only
in `b`, `removed` the identifiers only in `a`, `modified` the
identifiers present in both whose contents differ (with
content-addressed identifiers this list stays empty). -/
def MerkleDAG.compare (a b : MerkleDAG) : Diff :=
  { added := b.nodeIds.filter (fun i => !a.nodeIds.contains i)
  , removed := a.nodeIds.filter (fun i => !b.nodeIds.contains i)
  , modified := (a.nodes.filter (fun n => b.nodeIds.contains n.id &&
      ((b.getNode n.id).map (fun m => m.data) != some n.data))).map (fun n => n.id) }

/-- JavaScript default string comparison `a <= b` (lexicographic on the
code units), as a Boolean on the character lists. -/
def charListLeb : List Char → List Char → Bool
  | [], _ => true
  | _ :: _, [] => false
  | c :: cs, d :: ds =>
    if c.toNat < d.toNat then true
    else if d.toNat < c.toNat then false
    else charListLeb cs ds

/-- JavaScript default string comparison on strings. -/
def strLeb (a b : String) : Bool := charListLeb a.data b.data

/-- Insert a string into a sorted list of strings. -/
def insertSorted (x : String) : List String → List String
  | [] => [x]
  | y :: ys => if strLeb x y then x :: y :: ys else y :: insertSorted x ys

/-- `keys.slice().sort()` of JavaScript: the paths in lexicographic
order (default string comparison), modelled as an insertion sort. -/
def sortStrings : List String → List String
  | [] => []
  | x :: xs => insertSorted x (sortStrings xs)

/-- `buildMerkleDAG(fileHashes)` (synchronizer.ts lines 251-271): one
root node with content `"root:"` plus the concatenated hashes — the
hashes taken over `keys` in the map's insertion order — then one child
per path, in sorted path order, with content `path + ":" + hash`.
(JavaScript string concatenation renders a missing `get` as the text
`"undefined"`; with the keys drawn from the map itself this never
occurs.) -/
def buildMerkleDAG (fileHashes : FileState) : MerkleDAG :=
  let keys := mapKeys fileHashes
  let sortedPaths := sortStrings keys
  let valuesString :=
    keys.foldl (fun acc key => acc ++ (mapGet fileHashes key).getD "undefined") ""
  let rootNodeData := "root:" ++ valuesString
  let start := MerkleDAG.addNode { nodes := [] } rootNodeData none
  sortedPaths.foldl
    (fun dag p =>
      (MerkleDAG.addNode dag (p ++ ":" ++ (mapGet fileHashes p).getD "undefined")
        (some start.2)).1)
    start.1

/-- The contents of the parentless (root) nodes of a tree. -/
def rootContents (dag : MerkleDAG) : List String :=
  (dag.nodes.filter (fun n => n.parentId.isNone)).map (fun n => n.data)

/-- Concatenation of a file state's hash values in insertion (entry)
order. -/
def hashConcat : FileState → String
  | [] => ""
  | e :: t => e.2 ++ hashConcat t

theorem insertSorted_perm (x : String) (l : List String) :
    (insertSorted x l).Perm (x :: l) := by
  induction l with
  | nil => exact List.Perm.refl _
  | cons y ys ih =>
    simp only [insertSorted]
    split
    · exact List.Perm.refl _
    · exact (ih.cons y).trans (List.Perm.swap x y ys)

theorem sortStrings_perm (l : List String) : (sortStrings l).Perm l := by
  induction l with
  | nil => exact List.Perm.refl _
  | cons x xs ih =>
    exact (insertSorted_perm x (sortStrings xs)).trans (ih.cons x)

theorem foldl_strAppend_init (f : String → String) (l : List String)
    (a : String) :
    l.foldl (fun acc k => acc ++ f k) a
      = a ++ l.foldl (fun acc k => acc ++ f k) "" := by
  induction l generalizing a with
  | nil => simp
  | cons x xs ih =>
    simp only [List.foldl_cons]
    rw [ih (a ++ f x), ih ("" ++ f x)]
    simp [String.append_assoc]

theorem mapGet_congr_of_not_head (k : String) (v : String) (t : FileState)
    (p : String) (hne : k ≠ p) : mapGet ((k, v) :: t) p = mapGet t p := by
  rw [mapGet_cons, if_neg hne]

theorem foldl_strAppend_congr (f g : String → String) (l : List String)
    (h : ∀ k ∈ l, f k = g k) :
    l.foldl (fun acc k => acc ++ f k) "" = l.foldl (fun acc k => acc ++ g k) "" := by
  induction l with
  | nil => rfl
  | cons x xs ih =>
    simp only [List.foldl_cons]
    rw [foldl_strAppend_init f xs, foldl_strAppend_init g xs]
    rw [h x (List.mem_cons_self x xs),
      ih (fun k hk => h k (List.mem_cons_of_mem _ hk))]

theorem valuesString_eq_hashConcat (m : FileState)
    (hnd : (mapKeys m).Nodup) :
    (mapKeys m).foldl (fun acc key => acc ++ (mapGet m key).getD "undefined") ""
      = hashConcat m := by
  induction m with
  | nil => simp [mapKeys, hashConcat]
  | cons e t ih =>
    obtain ⟨k, v⟩ := e
    rw [mapKeys_cons, List.nodup_cons] at hnd
    rw [mapKeys_cons]
    simp only [List.foldl_cons]
    have hhead : mapGet ((k, v) :: t) k = some v := by
      rw [mapGet_cons, if_pos rfl]
    rw [foldl_strAppend_init]
    have hcongr :
        (mapKeys t).foldl
            (fun acc key => acc ++ (mapGet ((k, v) :: t) key).getD "undefined") ""
          = (mapKeys t).foldl
            (fun acc key => acc ++ (mapGet t key).getD "undefined") "" := by
      apply foldl_strAppend_congr
      intro key hkey
      have hne : k ≠ key := fun hc => hnd.1 (hc ▸ hkey)
      rw [mapGet_congr_of_not_head k v t key hne]
    rw [hcongr, ih hnd.2, hhead]
    simp [hashConcat]

theorem foldl_addNode_nodes (g : String → String) (pid : Option String)
    (paths : List String) (dag : MerkleDAG) :
    (paths.foldl (fun d p => (MerkleDAG.addNode d (g p) pid).1) dag).nodes
      = dag.nodes ++ paths.map
          (fun p => { id := merkleHash (g p), data := g p, parentId := pid }) := by
  induction paths generalizing dag with
  | nil => simp
  | cons x xs ih =>
    simp only [List.foldl_cons, List.map_cons]
    rw [ih]
    simp [MerkleDAG.addNode]

/-- Full node-list characterization of `buildMerkleDAG` for a file
state with no duplicate keys: a single parentless root node with
content `"root:"` plus the insertion-order hash concatenation, followed
by one leaf per path in sorted order, child of the root. -/
theorem buildMerkleDAG_nodes (m : FileState) (hnd : (mapKeys m).Nodup) :
    (buildMerkleDAG m).nodes =
      { id := "root:" ++ hashConcat m, data := "root:" ++ hashConcat m,
        parentId := none }
        :: (sortStrings (mapKeys m)).map (fun p =>
            { id := p ++ ":" ++ (mapGet m p).getD "undefined"
            , data := p ++ ":" ++ (mapGet m p).getD "undefined"
            , parentId := some ("root:" ++ hashConcat m) }) := by
  unfold buildMerkleDAG
  rw [foldl_addNode_nodes]
  rw [valuesString_eq_hashConcat m hnd]
  simp [MerkleDAG.addNode, merkleHash]

theorem rootContents_build (m : FileState) (hnd : (mapKeys m).Nodup) :
    rootContents (buildMerkleDAG m) = ["root:" ++ hashConcat m] := by
  rw [rootContents, buildMerkleDAG_nodes m hnd]
  rw [List.filter_cons_of_pos (by simp)]
  rw [List.filter_eq_nil_iff.mpr ?_]
  · simp
  · intro n hn
    obtain ⟨p, hp, rfl⟩ := List.mem_map.mp hn
    simp

theorem buildMerkleDAG_id_eq_data (m : FileState) :
    ∀ n ∈ (buildMerkleDAG m).nodes, n.id = n.data := by
  intro n hn
  unfold buildMerkleDAG at hn
  rw [foldl_addNode_nodes] at hn
  simp only [MerkleDAG.addNode, List.nil_append, List.mem_append,
    List.mem_singleton, List.mem_map] at hn
  rcases hn with rfl | ⟨p, hp, rfl⟩
  · rfl
  · rfl

theorem merkle_compare_self (d : MerkleDAG)
    (hid : ∀ n ∈ d.nodes, n.id = n.data) :
    MerkleDAG.compare d d = { added := [], removed := [], modified := [] } := by
  have hfilter : d.nodeIds.filter (fun i => !d.nodeIds.contains i) = [] := by
    rw [List.filter_eq_nil_iff]
    intro a ha
    simp [ha]
  have hmod : d.nodes.filter (fun n => d.nodeIds.contains n.id &&
      ((MerkleDAG.getNode d n.id).map (fun m => m.data) != some n.data)) = [] := by
    rw [List.filter_eq_nil_iff]
    intro n hn
    have hself : ∃ x ∈ d.nodes, (fun nd => decide (nd.id = n.id)) x = true :=
      ⟨n, hn, by simp⟩
    obtain ⟨found, hfound⟩ :=
      Option.isSome_iff_exists.mp (List.find?_isSome.mpr hself)
    have hfid : found.id = n.id := by
      have := List.find?_some hfound
      simpa using this
    have hfmem : found ∈ d.nodes := List.mem_of_find?_eq_some hfound
    have hfdata : found.data = n.data := by
      rw [← hid found hfmem, hfid, hid n hn]
    rw [MerkleDAG.getNode, hfound]
    simp [hfdata]
  rw [MerkleDAG.compare, hfilter, hmod]
  simp

/-! ## Claim C1 -/

/-- C1 as stated is refuted: for the file state with entries
`b↦h2, a↦h1` the root node's content is `"root:h2h1"` (the hashes in
insertion order, behind a `"root:"` tag), not the sorted-path-order
concatenation `"h1h2"`. -/
theorem buildMerkleDAG_root_not_sorted_concat :
    rootContents (buildMerkleDAG [("b", "h2"), ("a", "h1")]) ≠ ["h1" ++ "h2"]
    ∧ rootContents (buildMerkleDAG [("b", "h2"), ("a", "h1")]) = ["root:" ++ ("h2" ++ "h1")] := by
  constructor
  · decide
  · decide

/-- C1 (amended): for every duplicate-free file state, `buildMerkleDAG`
constructs exactly one root node whose content is `"root:"` followed by
the concatenation of the mapping's hashes in insertion order, plus one
child leaf node per path — the leaves in sorted path order — whose
content is the path, a `":"` separator, and the hash, attached to the
root. -/
theorem buildMerkleDAG_structure (m : FileState) (hnd : (mapKeys m).Nodup) :
    rootContents (buildMerkleDAG m) = ["root:" ++ hashConcat m]
    ∧ ((buildMerkleDAG m).nodes.filter (fun n => n.parentId.isSome)).map
        (fun n => n.data)
        = (sortStrings (mapKeys m)).map
            (fun p => p ++ ":" ++ (mapGet m p).getD "undefined")
    ∧ (∀ n ∈ (buildMerkleDAG m).nodes, n.parentId.isSome →
        n.parentId = some (merkleHash ("root:" ++ hashConcat m)))
    ∧ (sortStrings (mapKeys m)).Perm (mapKeys m) := by
  refine ⟨rootContents_build m hnd, ?_, ?_, sortStrings_perm (mapKeys m)⟩
  · rw [buildMerkleDAG_nodes m hnd]
    rw [List.filter_cons_of_neg (by simp)]
    rw [List.filter_eq_self.mpr ?_]
    · simp
    · intro n hn
      obtain ⟨p, hp, rfl⟩ := List.mem_map.mp hn
      simp
  · intro n hn hsome
    rw [buildMerkleDAG_nodes m hnd] at hn
    rcases List.mem_cons.mp hn with rfl | hmem
    · simp at hsome
    · obtain ⟨p, hp, rfl⟩ := List.mem_map.mp hmem
      rfl

/-- Witness for C1 (amended) at the two-entry state `b↦h2, a↦h1`. -/
theorem buildMerkleDAG_structure_witness :
    rootContents (buildMerkleDAG [("b", "h2"), ("a", "h1")])
      = ["root:" ++ hashConcat [("b", "h2"), ("a", "h1")]]
    ∧ ((buildMerkleDAG [("b", "h2"), ("a", "h1")]).nodes.filter
        (fun n => n.parentId.isSome)).map (fun n => n.data)
        = (sortStrings (mapKeys [("b", "h2"), ("a", "h1")])).map
            (fun p => p ++ ":" ++ (mapGet [("b", "h2"), ("a", "h1")] p).getD "undefined")
    ∧ (∀ n ∈ (buildMerkleDAG [("b", "h2"), ("a", "h1")]).nodes, n.parentId.isSome →
        n.parentId = some (merkleHash ("root:" ++ hashConcat [("b", "h2"), ("a", "h1")])))
    ∧ (sortStrings (mapKeys [("b", "h2"), ("a", "h1")])).Perm
        (mapKeys [("b", "h2"), ("a", "h1")]) :=
  buildMerkleDAG_structure [("b", "h2"), ("a", "h1")] (by decide)

/-! ## Claim C2 -/

/-- A decidable test of extensional equality of two file states as
path-to-hash mappings: same key set, same value at every key. -/
def stateEquiv (m1 m2 : FileState) : Bool :=
  (mapKeys m1).all (fun k => mapGet m1 k = mapGet m2 k)
  && (mapKeys m2).all (fun k => mapGet m2 k = mapGet m1 k)

/-- C2 as stated is refuted in both directions: renaming the single
path `a` to `b` while keeping the hash leaves the root content
unchanged although the mappings differ, and two equal mappings listed
in different insertion orders produce different root contents. -/
theorem rootContent_equality_not_state_equality :
    (rootContents (buildMerkleDAG [("a", "h")])
        = rootContents (buildMerkleDAG [("b", "h")])
      ∧ stateEquiv [("a", "h")] [("b", "h")] = false)
    ∧ (stateEquiv [("a", "x1"), ("b", "x2")] [("b", "x2"), ("a", "x1")] = true
      ∧ rootContents (buildMerkleDAG [("a", "x1"), ("b", "x2")])
          ≠ rootContents (buildMerkleDAG [("b", "x2"), ("a", "x1")])) := by
  refine ⟨⟨?_, ?_⟩, ?_, ?_⟩ <;> decide

/-- C2 (amended): for duplicate-free file states, the root nodes built
from two file states have equal content exactly when the concatenations
of their hash values in insertion order coincide — so equal states (as
entry lists) give equal root content, but root-content equality does
not determine the path set. -/
theorem rootContent_eq_iff_hashConcat_eq (m1 m2 : FileState)
    (h1 : (mapKeys m1).Nodup) (h2 : (mapKeys m2).Nodup) :
    (rootContents (buildMerkleDAG m1) = rootContents (buildMerkleDAG m2)
      ↔ hashConcat m1 = hashConcat m2) := by
  rw [rootContents_build m1 h1, rootContents_build m2 h2]
  constructor
  · intro h
    have hstr : "root:" ++ hashConcat m1 = "root:" ++ hashConcat m2 :=
      List.singleton_inj.mp h
    have hdata := congrArg String.data hstr
    rw [String.data_append, String.data_append] at hdata
    exact String.ext (List.append_cancel_left hdata)
  · intro h
    rw [h]

/-- Witness for C2 (amended) at the rename pair `a↦h` / `b↦h`. -/
theorem rootContent_eq_iff_hashConcat_eq_witness :
    (rootContents (buildMerkleDAG [("a", "h")])
        = rootContents (buildMerkleDAG [("b", "h")])
      ↔ hashConcat [("a", "h")] = hashConcat [("b", "h")]) :=
  rootContent_eq_iff_hashConcat_eq [("a", "h")] [("b", "h")]
    (by decide) (by decide)

/-! ## checkForChanges (synchronizer.ts lines 280-304) -/

/-- The in-memory state of a `FileSynchronizer`: the held file-hash map
and fingerprint tree. -/
structure SyncState where
  fileHashes : FileState
  merkleDAG : MerkleDAG
deriving Repr, DecidableEq

/-- `checkForChanges()` (synchronizer.ts lines 280-304), as a function
of the held state and the fresh scan result `newFileHashes` (the scan
itself touches the filesystem and is kept outside the model).  Returns
the diff handed to the caller, the updated held state, and whether
`saveSnapshot` was invoked. -/
def checkForChanges (st : SyncState) (newFileHashes : FileState) :
    Diff × SyncState × Bool :=
  let newMerkleDAG := buildMerkleDAG newFileHashes
  let changes := MerkleDAG.compare st.merkleDAG newMerkleDAG
  if changes.added.length > 0 ∨ changes.removed.length > 0 ∨
      changes.modified.length > 0 then
    let fileChanges := compareStates st.fileHashes newFileHashes
    (fileChanges, { fileHashes := newFileHashes, merkleDAG := newMerkleDAG }, true)
  else
    ({ added := [], removed := [], modified := [] }, st, false)

/-- C3: whenever the fingerprint-tree comparison reports no added,
removed or modified nodes, `checkForChanges` returns the empty diff,
leaves the held `FileState` and `FingerprintTree` unchanged, and
performs no snapshot write. -/
theorem checkForChanges_empty_comparison (st : SyncState)
    (newFileHashes : FileState)
    (h : MerkleDAG.compare st.merkleDAG (buildMerkleDAG newFileHashes) =
          { added := [], removed := [], modified := [] }) :
    checkForChanges st newFileHashes =
      ({ added := [], removed := [], modified := [] }, st, false) := by
  simp only [checkForChanges, h]
  simp

/-- Witness for C3: a held state whose tree was built from the same
single-file state the new scan reports. -/
theorem checkForChanges_empty_comparison_witness :
    checkForChanges
        { fileHashes := [("a", "h")], merkleDAG := buildMerkleDAG [("a", "h")] }
        [("a", "h")]
      = ({ added := [], removed := [], modified := [] },
         { fileHashes := [("a", "h")], merkleDAG := buildMerkleDAG [("a", "h")] },
         false) :=
  checkForChanges_empty_comparison
    { fileHashes := [("a", "h")], merkleDAG := buildMerkleDAG [("a", "h")] }
    [("a", "h")] (by decide)

/-- C8: running `checkForChanges` twice in a row with no filesystem
mutation in between — both calls see the same scan result — yields an
empty diff the second time. -/
theorem checkForChanges_idempotent (st : SyncState) (scanResult : FileState) :
    (checkForChanges (checkForChanges st scanResult).2.1 scanResult).1 =
      { added := [], removed := [], modified := [] } := by
  have hself : MerkleDAG.compare (buildMerkleDAG scanResult)
      (buildMerkleDAG scanResult) = { added := [], removed := [], modified := [] } :=
    merkle_compare_self _ (buildMerkleDAG_id_eq_data _)
  by_cases hcond :
      (MerkleDAG.compare st.merkleDAG (buildMerkleDAG scanResult)).added.length > 0
      ∨ (MerkleDAG.compare st.merkleDAG (buildMerkleDAG scanResult)).removed.length > 0
      ∨ (MerkleDAG.compare st.merkleDAG (buildMerkleDAG scanResult)).modified.length > 0
  · have hinner : (checkForChanges st scanResult).2.1
        = { fileHashes := scanResult, merkleDAG := buildMerkleDAG scanResult } := by
      simp only [checkForChanges]
      rw [if_pos hcond]
    rw [hinner]
    simp only [checkForChanges]
    simp [hself]
  · have hinner : (checkForChanges st scanResult).2.1 = st := by
      simp only [checkForChanges]
      rw [if_neg hcond]
    rw [hinner]
    simp only [checkForChanges]
    rw [if_neg hcond]

/-! ## PathMatcher (synchronizer.ts lines 110-249)

`shouldIgnore` and `matchGitignorePattern` are in the sources; the glob
matching itself is delegated to the external `minimatch` library, which
is modelled below from the spec's description of the semantics (section
4.1 rule 6 and the glossary: `*` does not cross a path separator, `**`
does; `dot` is always disabled by the call sites). -/

/-- All suffixes of a list, longest first. -/
def listSuffixes {α : Type} : List α → List (List α)
  | [] => [[]]
  | x :: xs => (x :: xs) :: listSuffixes xs

/-- One glob pattern segment against one path segment: `*` matches any
run of characters within the segment (tried as every suffix split),
`?` one character, anything else is literal. -/
def globSegMatch : List Char → List Char → Bool
  | [], f => decide (f = [])
  | '*' :: ps, f => (listSuffixes f).any (fun s => globSegMatch ps s)
  | '?' :: ps, f =>
    match f with
    | [] => false
    | _ :: cs => globSegMatch ps cs
  | p :: ps, f =>
    match f with
    | [] => false
    | c :: cs => p = c && globSegMatch ps cs

/-- One pattern segment against one path segment under minimatch's
`dot:false` rule: a hidden path segment (leading `.`) is matched only
by a pattern segment that itself starts with a literal `.`. -/
def segMatch (pat f : List Char) : Bool :=
  match f with
  | '.' :: _ =>
    match pat with
    | '.' :: _ => globSegMatch pat f
    | _ => false
  | _ => globSegMatch pat f

/-- Modelled from the spec: minimatch's segment-list matching with
`dot:false`: a trailing `**` matches the remaining (at least one)
segments provided none is hidden; a `**` before further pattern
segments swallows zero or more non-hidden segments; leftover pattern
fails; leftover path is allowed only as one trailing empty segment
(a trailing slash). -/
def swallowSuffixes : List (List Char) → List (List (List Char))
  | [] => [[]]
  | f :: fs =>
    (f :: fs) :: (if f.head? = some '.' then [] else swallowSuffixes fs)

def matchSegs : List (List Char) → List (List Char) → Bool
  | [], [] => true
  | [], f :: fs => decide (f = [] ∧ fs = [])
  | p :: ps, file =>
    if p = ['*', '*'] then
      match ps with
      | [] =>
        match file with
        | [] => false
        | f :: fs => (f :: fs).all (fun seg => !(seg.head? = some '.'))
      | _ :: _ =>
        (swallowSuffixes file).any (fun rest => matchSegs ps rest)
    else
      match file with
      | [] => false
      | f :: fs => segMatch p f && matchSegs ps fs

/-- Modelled from the spec: the external `minimatch(path, pattern,
{dot:false, nocase:false, matchBase})` call, for the pattern features
the synchronizer produces (literals, `*`, `?`, `**`; no braces,
extglobs or character classes appear at any call site).  A `#`-leading
pattern is a comment and matches nothing; leading `!` characters negate
the result; with `matchBase` set and a slash-free pattern, the pattern
is matched against the path's basename. -/
def minimatch (path pattern : String) (matchBase : Bool) : Bool :=
  if strStartsWith pattern "#" then false
  else
    let negCount := (pattern.data.takeWhile (fun c => c = '!')).length
    let pat : List Char := pattern.data.drop negCount
    let patSegs := jsSplitChars '/' pat []
    let fileSegs := jsSplitChars '/' path.data []
    let res :=
      if matchBase && !pat.contains '/' then
        segMatch pat ((fileSegs.getLast?).getD [])
      else
        matchSegs patSegs fileSegs
    if negCount % 2 = 1 then !res else res

/-- `matchGitignorePattern(normalizedPath, pathWithSlash, rawPattern,
isDirectory)` (synchronizer.ts lines 143-249).  The `pathWithSlash`
argument is received but — as in the source — never used. -/
def matchGitignorePattern (normalizedPath pathWithSlash rawPattern : String)
    (isDirectory : Bool) : Bool :=
  if rawPattern = "" || strStartsWith rawPattern "#" then false
  else
    let pattern0 := jsTrim rawPattern
    if pattern0 = "" then false
    else if strStartsWith pattern0 "!" then false
    else
      let isRootRelative := strStartsWith pattern0 "/"
      let isDirectoryPattern := strEndsWith pattern0 "/"
      let pattern1 := if isRootRelative then strDrop pattern0 1 else pattern0
      let pattern := if isDirectoryPattern then strDropRight pattern1 1 else pattern1
      let hasSlash := strContainsChar pattern '/'
      let mb := !hasSlash && !isRootRelative
      if isDirectoryPattern then
        (isDirectory &&
          (minimatch normalizedPath pattern mb
            || (!isRootRelative && minimatch normalizedPath ("**/" ++ pattern) mb)))
        || minimatch normalizedPath (pattern ++ "/**") mb
        || (!isRootRelative && minimatch normalizedPath ("**/" ++ (pattern ++ "/**")) mb)
      else if isRootRelative then
        minimatch normalizedPath pattern mb
          || minimatch normalizedPath (pattern ++ "/**") mb
      else if hasSlash then
        (strEndsWith pattern "/**" &&
            minimatch normalizedPath (strDropRight pattern 3) mb)
          || minimatch normalizedPath pattern mb
          || minimatch normalizedPath (pattern ++ "/**") mb
          || minimatch normalizedPath ("**/" ++ pattern) mb
          || minimatch normalizedPath ("**/" ++ pattern ++ "/**") mb
      else
        minimatch normalizedPath pattern mb

/-- `shouldIgnore(relativePath, isDirectory)` (synchronizer.ts lines
110-138), with the configured pattern list passed explicitly; the
platform separator used by the hidden-segment check is `'/'`. -/
def shouldIgnore (ignorePatterns : List String) (relativePath : String)
    (isDirectory : Bool) : Bool :=
  let pathParts := jsSplit '/' relativePath
  if pathParts.any (fun part => strStartsWith part ".") then true
  else if ignorePatterns.length = 0 then false
  else
    let normalizedPath := stripOuterSlashes (backslashToSlash relativePath)
    if normalizedPath = "" then false
    else
      let pathToCheck := if isDirectory then normalizedPath ++ "/" else normalizedPath
      ignorePatterns.any (fun rawPattern =>
        matchGitignorePattern normalizedPath pathToCheck rawPattern isDirectory)

/-! ## Claim C5 -/

/-- C5: for every configured pattern list (including the empty list),
every relative path and either value of the directory flag,
`shouldIgnore` returns `true` whenever any segment of the path (split
on the path separator) starts with `.`. -/
theorem hidden_segments_always_ignored (ignorePatterns : List String)
    (relativePath : String) (isDirectory : Bool)
    (h : (jsSplit '/' relativePath).any
        (fun part => strStartsWith part ".") = true) :
    shouldIgnore ignorePatterns relativePath isDirectory = true := by
  simp only [shouldIgnore, h]
  simp

/-- Witness for C5: the hidden directory `.git` with no patterns. -/
theorem hidden_segments_always_ignored_witness :
    shouldIgnore [] ".git" true = true :=
  hidden_segments_always_ignored [] ".git" true (by decide)

/-! ## Claim C7 -/

theorem jsTrim_data_bang (s : String) (t : List Char)
    (ht : s.data = '!' :: t) : ∃ t2, (jsTrim s).data = '!' :: t2 := by
  show ∃ t2,
    ((s.data.dropWhile Char.isWhitespace).reverse.dropWhile
      Char.isWhitespace).reverse = '!' :: t2
  rw [ht, List.dropWhile_cons, if_neg (by decide)]
  rw [List.reverse_cons, List.dropWhile_append]
  split
  next =>
    rw [List.dropWhile_cons, if_neg (by decide)]
    exact ⟨[], rfl⟩
  next =>
    rw [List.reverse_append, List.reverse_cons, List.reverse_nil,
      List.nil_append]
    exact ⟨_, rfl⟩

theorem exists_head_of_strStartsWith_bang (s : String)
    (h : strStartsWith s "!" = true) : ∃ t, s.data = '!' :: t := by
  rw [strStartsWith] at h
  rcases hd : s.data with _ | ⟨c, cs⟩
  · rw [hd] at h
    simp [List.isPrefixOf] at h
  · rw [hd] at h
    simp only [List.isPrefixOf, Bool.and_eq_true, beq_iff_eq] at h
    obtain ⟨h1, -⟩ := h
    exact ⟨cs, by rw [← h1]⟩

/-- Empty, comment (`#`) and negated (`!`) raw patterns never match
(synchronizer.ts lines 149-159). -/
theorem matchGitignorePattern_inert (normalizedPath pathWithSlash
    rawPattern : String) (isDirectory : Bool)
    (h : rawPattern = "" ∨ strStartsWith rawPattern "#" = true ∨
      strStartsWith rawPattern "!" = true) :
    matchGitignorePattern normalizedPath pathWithSlash rawPattern
      isDirectory = false := by
  rcases h with rfl | h | h
  · simp [matchGitignorePattern]
  · simp [matchGitignorePattern, h]
  · obtain ⟨t, ht⟩ := exists_head_of_strStartsWith_bang rawPattern h
    obtain ⟨t2, ht2⟩ := jsTrim_data_bang rawPattern t ht
    have hne : ¬ jsTrim rawPattern = "" := by
      intro hc
      rw [hc] at ht2
      simp at ht2
    have h3 : strStartsWith (jsTrim rawPattern) "!" = true := by
      rw [strStartsWith, ht2]
      simp [List.isPrefixOf]
    have h1 : (decide (rawPattern = "") || strStartsWith rawPattern "#")
        = false := by
      have hne0 : ¬ rawPattern = "" := by
        intro hc
        rw [hc] at ht
        simp at ht
      rw [strStartsWith, ht]
      simp [hne0, List.isPrefixOf]
    simp only [matchGitignorePattern, h1, h3]
    simp [hne]

/-- C7: a configured pattern that is empty, a `#` comment, or a `!`
negation never causes a match; consequently, with only such patterns
configured, `shouldIgnore` coincides with the hidden-segment test. -/
theorem inert_patterns_hidden_only (ignorePatterns : List String)
    (relativePath pathWithSlash : String) (isDirectory : Bool)
    (hin : ∀ pat ∈ ignorePatterns, pat = "" ∨
      strStartsWith pat "#" = true ∨ strStartsWith pat "!" = true) :
    (∀ pat ∈ ignorePatterns,
      matchGitignorePattern relativePath pathWithSlash pat isDirectory = false)
    ∧ shouldIgnore ignorePatterns relativePath isDirectory
        = (jsSplit '/' relativePath).any (fun part => strStartsWith part ".") := by
  refine ⟨fun pat hpat =>
    matchGitignorePattern_inert _ _ _ _ (hin pat hpat), ?_⟩
  simp only [shouldIgnore]
  split
  next hhid => exact hhid.symm
  next hhid =>
    have hfalse : (jsSplit '/' relativePath).any
        (fun part => strStartsWith part ".") = false :=
      Bool.eq_false_iff.mpr hhid
    rw [hfalse]
    split
    · rfl
    · split
      · rfl
      · apply List.any_eq_false.mpr
        intro pat hpat
        rw [matchGitignorePattern_inert _ _ _ _ (hin pat hpat)]
        simp

/-- Witness for C7: an empty, a comment and a negation pattern leave a
plain source path unignored, and the decision equals the hidden test. -/
theorem inert_patterns_hidden_only_witness :
    (∀ pat ∈ ["", "#comment", "!important.log"],
      matchGitignorePattern "src/app.min.js" "src/app.min.js" pat false = false)
    ∧ shouldIgnore ["", "#comment", "!important.log"] "src/app.min.js" false
        = (jsSplit '/' "src/app.min.js").any (fun part => strStartsWith part ".") :=
  inert_patterns_hidden_only ["", "#comment", "!important.log"]
    "src/app.min.js" "src/app.min.js" false (by decide)

/-! ## Claim C6 -/

theorem jsSplitChars_ne_nil (sep : Char) (cs acc : List Char) :
    jsSplitChars sep cs acc ≠ [] := by
  induction cs generalizing acc with
  | nil => simp [jsSplitChars]
  | cons c t ih =>
    rw [jsSplitChars]
    split
    · simp
    · exact ih _

theorem jsSplitChars_public_app (cs : List Char) :
    jsSplitChars '/' ("public/app/".data ++ cs) []
      = "public".data :: "app".data :: jsSplitChars '/' cs [] := rfl

theorem minimatch_public_app_exact (np : String) :
    minimatch np "public/app" false
      = matchSegs ["public".data, "app".data]
          (jsSplitChars '/' np.data []) := rfl

theorem minimatch_public_app_glob (np : String) :
    minimatch np "public/app/**" false
      = matchSegs ["public".data, "app".data, ['*', '*']]
          (jsSplitChars '/' np.data []) := rfl

theorem matchGitignorePattern_public_app (np pws : String) (b : Bool) :
    matchGitignorePattern np pws "/public/app" b
      = (minimatch np "public/app" false
          || minimatch np "public/app/**" false) := rfl

theorem matchSegs_public_app_glob_true (f : List Char)
    (fs : List (List Char)) (h : ∀ seg ∈ f :: fs, seg.head? ≠ some '.') :
    matchSegs ["public".data, "app".data, ['*', '*']]
      ("public".data :: "app".data :: f :: fs) = true := by
  show (f :: fs).all (fun seg => !(seg.head? = some '.')) = true
  rw [List.all_eq_true]
  intro seg hseg
  have := h seg hseg
  simp [this]

theorem strStartsWith_dot_eq_false_iff (l : List Char) :
    strStartsWith ⟨l⟩ "." = false ↔ l.head? ≠ some '.' := by
  cases l with
  | nil =>
    constructor
    · intro _
      simp
    · intro _
      rfl
  | cons c cs =>
    constructor
    · intro h hc
      obtain rfl : c = '.' := by simpa using hc
      simp [strStartsWith, List.isPrefixOf] at h
    · intro h
      have hc : c ≠ '.' := fun hcc => h (by rw [hcc]; rfl)
      simp [strStartsWith, List.isPrefixOf]
      exact fun hcc => hc hcc.symm

theorem backslashToSlash_eq_self (s : String)
    (h : ¬ '\\' ∈ s.data) : backslashToSlash s = s := by
  apply String.ext
  show s.data.map (fun c => if c = '\\' then '/' else c) = s.data
  have : s.data.map (fun c => if c = '\\' then '/' else c)
      = s.data.map id := by
    apply List.map_congr_left
    intro a ha
    have : a ≠ '\\' := fun hc => h (hc ▸ ha)
    simp [this]
  rw [this, List.map_id]

theorem stripOuterSlashes_eq_self (s : String)
    (hh : s.data.head? ≠ some '/') (hl : s.data.getLast? ≠ some '/') :
    stripOuterSlashes s = s := by
  apply String.ext
  show ((s.data.dropWhile (fun c => c = '/')).reverse.dropWhile
      (fun c => c = '/')).reverse = s.data
  have h1 : s.data.dropWhile (fun c => c = '/') = s.data := by
    rcases hd : s.data with _ | ⟨c, cs⟩
    · rfl
    · have hc : c ≠ '/' := by
        rw [hd] at hh
        simpa using hh
      rw [List.dropWhile_cons, if_neg (by simp [hc])]
  rw [h1]
  have h2 : s.data.reverse.dropWhile (fun c => c = '/') = s.data.reverse := by
    rcases hr : s.data.reverse with _ | ⟨c, cs⟩
    · rfl
    · have hcl : s.data.getLast? = some c := by
        rw [← List.head?_reverse, hr]
        rfl
      have hc : c ≠ '/' := by
        intro hcc
        rw [hcc] at hcl
        exact hl hcl
      rw [List.dropWhile_cons, if_neg (by simp [hc])]
  rw [h2, List.reverse_reverse]

/-- C6: with the configured pattern `/public/app`, `isIgnored` is true
for the directory `public/app` and for every slash-normalized path
beneath it (in particular `public/app/bundle.js` and
`public/app/chunks/vendor.js`), and false for `src/public/app`. -/
theorem rootRelative_public_app_spec :
    shouldIgnore ["/public/app"] "public/app" true = true
    ∧ shouldIgnore ["/public/app"] "public/app/bundle.js" false = true
    ∧ shouldIgnore ["/public/app"] "public/app/chunks/vendor.js" false = true
    ∧ shouldIgnore ["/public/app"] "src/public/app" true = false
    ∧ ∀ (su : String) (b : Bool), ¬ '\\' ∈ su.data →
        su.data.getLast? ≠ some '/' →
        shouldIgnore ["/public/app"] ("public/app/" ++ su) b = true := by
  refine ⟨by decide, by decide, by decide, by decide, ?_⟩
  intro su b hbs hlast
  rcases hsu0 : su.data with _ | ⟨c0, cs0⟩
  · have hsu : su = "" := String.ext (by rw [hsu0])
    subst hsu
    cases b <;> decide
  · have hpd : ("public/app/" ++ su).data = "public/app/".data ++ su.data :=
      String.data_append _ _
    by_cases hhid : (jsSplit '/' ("public/app/" ++ su)).any
        (fun part => strStartsWith part ".") = true
    · simp only [shouldIgnore, hhid]
      simp
    · have hhid2 : (jsSplit '/' ("public/app/" ++ su)).any
          (fun part => strStartsWith part ".") = false := Bool.eq_false_iff.mpr hhid
      have hsplitfull : jsSplitChars '/' ("public/app/" ++ su).data []
          = "public".data :: "app".data :: jsSplitChars '/' su.data [] := by
        rw [hpd]
        exact jsSplitChars_public_app su.data
      have hsegs : ∀ seg ∈ jsSplitChars '/' su.data [],
          seg.head? ≠ some '.' := by
        intro seg hseg
        have hmem : (⟨seg⟩ : String) ∈ jsSplit '/' ("public/app/" ++ su) := by
          rw [jsSplit, hsplitfull]
          exact List.mem_map_of_mem _
            (List.mem_cons_of_mem _ (List.mem_cons_of_mem _ hseg))
        have hfalse := List.any_eq_false.mp hhid2 _ hmem
        have hsw : strStartsWith ⟨seg⟩ "." = false :=
          Bool.eq_false_iff.mpr hfalse
        exact (strStartsWith_dot_eq_false_iff seg).mp hsw
      have hnb : ¬ '\\' ∈ ("public/app/" ++ su).data := by
        rw [hpd]
        intro hmem
        rcases List.mem_append.mp hmem with hmem | hmem
        · have : ¬ '\\' ∈ "public/app/".data := by decide
          exact this hmem
        · exact hbs hmem
      have hb2s : backslashToSlash ("public/app/" ++ su) = "public/app/" ++ su :=
        backslashToSlash_eq_self _ hnb
      have hhead : ("public/app/" ++ su).data.head? ≠ some '/' := by
        rw [hpd]
        have : ("public/app/".data ++ su.data).head? = some 'p' := rfl
        rw [this]
        simp
      have hlast2 : ("public/app/" ++ su).data.getLast? ≠ some '/' := by
        rw [hpd, List.getLast?_append]
        rcases ho : su.data.getLast? with _ | z
        · rw [List.getLast?_eq_none_iff] at ho
          rw [ho] at hsu0
          simp at hsu0
        · have hz : z ≠ '/' := by
            intro hzc
            rw [hzc] at ho
            exact hlast ho
          simp [Option.or, hz]
      have hstrip : stripOuterSlashes ("public/app/" ++ su)
          = "public/app/" ++ su :=
        stripOuterSlashes_eq_self _ hhead hlast2
      have hnempty : ¬ ("public/app/" ++ su : String) = "" := by
        intro hc
        have hcd := congrArg String.data hc
        rw [hpd] at hcd
        rcases List.append_eq_nil.mp hcd with ⟨hl, -⟩
        have : "public/app/".data ≠ [] := by decide
        exact this hl
      simp only [shouldIgnore, hhid2]
      rw [if_neg (by simp)]
      rw [if_neg (by decide)]
      rw [hb2s, hstrip]
      rw [if_neg hnempty]
      simp only [List.any_cons, List.any_nil, Bool.or_false]
      rw [matchGitignorePattern_public_app]
      have hglob : minimatch ("public/app/" ++ su) "public/app/**" false
          = true := by
        rw [minimatch_public_app_glob, hsplitfull]
        obtain ⟨f, fs, hffs⟩ :=
          List.exists_cons_of_ne_nil (jsSplitChars_ne_nil '/' su.data [])
        rw [hffs]
        refine matchSegs_public_app_glob_true f fs ?_
        rw [← hffs]
        exact hsegs
      rw [hglob]
      simp

/-- Witness for C6 instantiating the universal part at
`public/app/bundle.js`. -/
theorem rootRelative_public_app_spec_witness :
    shouldIgnore ["/public/app"] ("public/app/" ++ "bundle.js") false = true :=
  rootRelative_public_app_spec.2.2.2.2 "bundle.js" false (by decide) (by decide)

/-! ## deleteSnapshot (synchronizer.ts lines 394-412) -/

/-- Errors surfaced by the filesystem unlink primitive: the file being
absent (`ENOENT`) or any other failure carrying its message. -/
inductive FsError where
  | enoent : FsError
  | other : String → FsError
deriving Repr, DecidableEq

/-- Modelled from the spec: the snapshot location is derived
deterministically from the canonicalized root path — one file under the
per-user `~/.context/merkle` directory named by a digest of the root
path with a `.json` extension; the digest is modelled as an injective
encoding of the path itself. -/
def getSnapshotPath (codebasePath : String) : String :=
  "~/.context/merkle/" ++ codebasePath ++ ".json"

/-- Modelled from the spec: the external `fs.unlink` primitive over a
filesystem state listing the existing files, where `failures` injects
any non-ENOENT fault (permissions, I/O) the environment produces for a
path; unlinking an absent path fails with ENOENT. -/
def fsUnlink (files : List String) (failures : String → Option String)
    (p : String) : Except FsError (List String) :=
  match failures p with
  | some msg => .error (.other msg)
  | none =>
    if p ∈ files then .ok (files.erase p) else .error .enoent

/-- `deleteSnapshot(codebasePath)` (synchronizer.ts lines 394-412):
unlink the snapshot file for the root; ENOENT is swallowed
("already deleted"), every other failure is re-thrown. -/
def deleteSnapshot (files : List String)
    (failures : String → Option String) (codebasePath : String) :
    Except FsError (List String) :=
  let snapshotPath := getSnapshotPath codebasePath
  match fsUnlink files failures snapshotPath with
  | .ok updated => .ok updated
  | .error .enoent => .ok files
  | .error e => .error e

/-- C9: `deleteSnapshot(rootDir)` completes without error when no
snapshot file exists for that root, and propagates every deletion
failure other than the file being missing. -/
theorem deleteSnapshot_spec (files : List String)
    (failures : String → Option String) (rootDir : String) :
    (failures (getSnapshotPath rootDir) = none →
      ¬ getSnapshotPath rootDir ∈ files →
      deleteSnapshot files failures rootDir = .ok files)
    ∧ (∀ msg, failures (getSnapshotPath rootDir) = some msg →
      deleteSnapshot files failures rootDir = .error (.other msg)) := by
  constructor
  · intro hf hmem
    simp only [deleteSnapshot, fsUnlink, hf]
    rw [if_neg hmem]
  · intro msg hf
    simp only [deleteSnapshot, fsUnlink, hf]

/-- Witness for C9: a root with no snapshot file succeeds; a permission
failure on an existing snapshot propagates. -/
theorem deleteSnapshot_spec_witness :
    deleteSnapshot [] (fun _ => none) "/repo" = .ok ([] : List String)
    ∧ deleteSnapshot ["~/.context/merkle//repo.json"]
        (fun _ => some "EACCES") "/repo" = .error (.other "EACCES") :=
  ⟨(deleteSnapshot_spec [] (fun _ => none) "/repo").1 rfl (by simp),
   (deleteSnapshot_spec ["~/.context/merkle//repo.json"]
     (fun _ => some "EACCES") "/repo").2 "EACCES" rfl⟩

end SyncCore
